import Mathlib

/-!
Verification of the takama/router route-registration-and-matching engine.

The definitions below are a shallow embedding of the repository's routing
core: the path segmenter (`trim`, `explode`, `join`, `split`), the
per-method pattern registry (`parser`, `register`), the matcher
(`parseParams`, `parser.get`) and the dispatcher (`Router.Handle`,
`Router.Lookup`, `Router.AllowedMethods`, `Router.ServeHTTP`).

Modelling conventions:
- Go strings are `List Char`; Go slices are Lean lists.
- Go maps are association lists; lookups and updates mirror Go map
  reads and assignments.  Where Go iterates over a map (the method table
  in `AllowedMethods`, `Routes`), the model iterates in registration
  order; Go leaves that order unspecified and the theorems below only
  use order-independent consequences of such iterations.
- Handler values (Go `func` pointers) are opaque `Nat` identifiers.
- A Go runtime panic (index out of range) is an explicit `Except.error`.
- `sort.Sort` (Go standard library, pre-1.19 as contemporary with this
  2015 library) runs, for slices of at most 12 elements, a gap-6 Shell
  pass followed by an insertion sort; `sortRecords` embeds exactly that
  pass.  For longer slices Go switches to an unstable quicksort; the
  Shell-pass-plus-insertion procedure is itself a total sorting
  procedure for every length, and no theorem below depends on the tie
  order of buckets longer than 12 records.
-/

namespace TakamaRouter

/-- Go strings, modelled as lists of characters. -/
abbrev Str := List Char

/-- Maximum segmentation depth, `maxLevel` in parser.go. -/
def maxLevel : Nat := 255

/-- The wildcard marker, `asterisk` in parser.go. -/
def asterisk : Str := ['*']

/-- Embeds `trim(str, sep)` from parser.go for a one-character separator:
strips all leading and then all trailing occurrences of `c`. -/
def trim (c : Char) (s : Str) : Str :=
  ((s.dropWhile (fun x => x = c)).reverse.dropWhile (fun x => x = c)).reverse

/-- Embeds `explode` from parser.go: an empty string yields no parts,
otherwise the string is split on every slash, keeping empty parts. -/
def explode (s : Str) : List Str :=
  if s = [] then [] else s.splitOn '/'

/-- Embeds `join` from parser.go, which is `strings.Join(parts, "/")`. -/
def join (parts : List Str) : Str :=
  List.intercalate ['/'] parts

/-- Embeds `split` from parser.go: trims slashes, explodes, and when the
raw part count is below `maxLevel` keeps the space-trimmed non-empty
parts; otherwise segmentation fails. -/
def split (path : Str) : Option (List Str) :=
  let sdata := explode (trim '/' path)
  if sdata.length = 0 then some sdata
  else if sdata.length < maxLevel then
    some ((sdata.map (fun v => trim ' ' v)).filter (fun v => v ≠ []))
  else none

/-- Segment classification `len(value) >= 1 && value[0:1] == ":"`. -/
def isParam (v : Str) : Bool :=
  match v with
  | ':' :: _ => true
  | _ => false

/-- Segment classification `len(value) == 1 && value == "*"`. -/
def isWild (v : Str) : Bool := v = ['*']

/-- Embeds `record` from parser.go; the handler is an opaque id. -/
structure record where
  key : Nat
  handle : Nat
  parts : List Str
deriving DecidableEq

/-- Embeds `Param` from control.go: a URL parameter key/value pair. -/
structure Param where
  Key : Str
  Value : Str
deriving DecidableEq

/-- Association-list lookup, modelling a Go map read `m[k]`. -/
def alookup {κ α : Type} [DecidableEq κ] : List (κ × α) → κ → Option α
  | [], _ => none
  | (k, v) :: rest, key => if k = key then some v else alookup rest key

/-- Association-list update, modelling a Go map assignment `m[k] = v`. -/
def aset {κ α : Type} [DecidableEq κ] : List (κ × α) → κ → α → List (κ × α)
  | [], k, v => [(k, v)]
  | (k', v') :: rest, k, v =>
      if k' = k then (k, v) :: rest else (k', v') :: aset rest k v

/-- Bucket read `p.fields[level]`; a missing level is the empty bucket,
as a nil Go slice. -/
def fget (f : List (Nat × List record)) (level : Nat) : List record :=
  (alookup f level).getD []

/-- Inserts `x` into `l` before the first strictly greater key; this is
the effect of one step of Go's `insertionSort` on the sorted prefix. -/
def insRec (x : record) : List record → List record
  | [] => [x]
  | y :: ys => if x.key < y.key then x :: y :: ys else y :: insRec x ys

/-- Go's `insertionSort(data, a, b)`: inserts elements left to right,
moving each left across strictly greater keys only. -/
def insertionSort (l : List record) : List record :=
  l.foldl (fun acc x => insRec x acc) []

/-- One step of the gap-6 Shell pass: compare positions `i` and `i-6`
and swap when strictly less. -/
def shellStep (l : List record) (i : Nat) : List record :=
  match l[i]?, l[i - 6]? with
  | some x, some y => if x.key < y.key then (l.set i y).set (i - 6) x else l
  | _, _ => l

/-- The gap-6 Shell pass of Go's `sort.Sort` small-slice path:
`for i := a+6; i < b; i++ { if Less(i, i-6) { Swap(i, i-6) } }`. -/
def shellPass (l : List record) : List record :=
  (List.range l.length).foldl (fun acc i => if 6 ≤ i then shellStep acc i else acc) l

/-- Embeds `sort.Sort(records(...))` as run by Go (pre-1.19) on slices
of at most 12 records: the gap-6 Shell pass followed by insertion sort.
See the module comment for the modelling note on longer slices. -/
def sortRecords (l : List record) : List record :=
  insertionSort (shellPass l)

/-- Embeds the `parser` struct of parser.go: `fields` buckets keyed by
segment count, the `static` map and the `wildcard` records. -/
structure parser where
  fields : List (Nat × List record)
  static : List (Str × Nat)
  wildcard : List record
deriving DecidableEq

/-- Embeds `newParser()`. -/
def newParser : parser := ⟨[], [], []⟩

/-- Embeds `parser.register` from parser.go: the bare `*` pattern is the
catch-all; otherwise a successful split classifies segments and files
the pattern into the wildcard records, the static map, or a sorted
length bucket; a failed split reports failure and changes nothing. -/
def register (p : parser) (path : Str) (handle : Nat) : parser × Bool :=
  if trim ' ' path = asterisk then
    ({ p with static := aset p.static asterisk handle }, true)
  else
    match split path with
    | some parts =>
        let dyn := (parts.filter (fun v => isParam v)).length
        let wild := (parts.filter (fun v => isWild v)).length
        let stat := (parts.filter (fun v => ¬ isParam v ∧ ¬ isWild v)).length
        if wild > 0 then
          ({ p with wildcard := p.wildcard ++ [⟨dyn * 256 + stat, handle, parts⟩] }, true)
        else if dyn = 0 then
          ({ p with static := aset p.static ('/' :: join parts) handle }, true)
        else
          let level := parts.length
          let bucket := sortRecords (fget p.fields level ++ [⟨dyn * 256 + stat, handle, parts⟩])
          ({ p with fields := aset p.fields level bucket }, true)
    | none => (p, false)

/-- A Go runtime panic raised inside the matcher. -/
inductive PanicKind where
  | indexOutOfRange
deriving DecidableEq

/-- Embeds the inner loop of `parseParams` for one record: walks the
pattern segments against the request segments; a `*` segment stops the
walk successfully, a literal segment must match exactly, a `:` segment
binds; reading past the end of the request segments is the runtime
panic `index out of range` of the Go code. -/
def matchParts : List Str → List Str → Except PanicKind (Option (List Param))
  | [], _ => .ok (some [])
  | v :: vs, ps =>
      if isWild v then .ok (some [])
      else
        match ps with
        | [] => .error .indexOutOfRange
        | pv :: ps' =>
            if v ≠ pv ∧ ¬ (isParam v = true) then .ok none
            else
              match matchParts vs ps' with
              | .error e => .error e
              | .ok none => .ok none
              | .ok (some rest) =>
                  .ok (some ((if isParam v then [⟨v, pv⟩] else []) ++ rest))

/-- Embeds `parseParams` from parser.go: scans the records in order and
returns the first record whose segments match, with its bound
parameters and its pattern segments. -/
def parseParams (data : List record) (parts : List Str) :
    Except PanicKind (Option (Nat × List Param × List Str)) :=
  match data with
  | [] => .ok none
  | r :: rest =>
      match matchParts r.parts parts with
      | .error e => .error e
      | .ok (some result) => .ok (some (r.handle, result, r.parts))
      | .ok none => parseParams rest parts

/-- The result of a successful `parser.get`: handler id, bound
parameters and the matched route string. -/
structure getRes where
  handle : Nat
  result : List Param
  route : Str
deriving DecidableEq

/-- Embeds `parser.get` from parser.go: catch-all first, then the exact
raw path, then the canonical slash-joined form, then the length bucket,
then the wildcard records; a failed split reports not found. -/
def parser.get (p : parser) (path : Str) : Except PanicKind (Option getRes) :=
  match alookup p.static asterisk with
  | some h => .ok (some ⟨h, [], asterisk⟩)
  | none =>
    match alookup p.static path with
    | some h => .ok (some ⟨h, [], path⟩)
    | none =>
      match split path with
      | none => .ok none
      | some parts =>
          match alookup p.static ('/' :: join parts) with
          | some h => .ok (some ⟨h, [], '/' :: join parts⟩)
          | none =>
            match parseParams (fget p.fields parts.length) parts with
            | .error e => .error e
            | .ok (some (h, res, vparts)) => .ok (some ⟨h, res, '/' :: join vparts⟩)
            | .ok none =>
                match parseParams p.wildcard parts with
                | .error e => .error e
                | .ok (some (h, res, vparts)) => .ok (some ⟨h, res, '/' :: join vparts⟩)
                | .ok none => .ok none

/-- Embeds `parser.routes`: every registered pattern string, from the
static map, the length buckets and the wildcard records. -/
def parser.routes (p : parser) : List Str :=
  (p.static.map (fun kv => kv.1))
    ++ (p.fields.map (fun lr => lr.2.map (fun r => '/' :: join r.parts))).flatten
    ++ (p.wildcard.map (fun r => '/' :: join r.parts))

/-- Embeds the `Router` struct: one parser per HTTP method. -/
structure Router where
  handlers : List (Str × parser)
deriving DecidableEq

/-- Embeds `router.New()`. -/
def Router.new : Router := ⟨[]⟩

/-- Embeds `Router.Handle`: creates the method's parser on first use and
registers the pattern, discarding the parser's success flag. -/
def Router.Handle (r : Router) (method path : Str) (h : Nat) : Router :=
  let base := (alookup r.handlers method).getD newParser
  ⟨aset r.handlers method (register base path h).1⟩

/-- Embeds `Router.Lookup`: resolves a method and path against the
method's parser; an unknown method is a normal not-found. -/
def Router.Lookup (r : Router) (method path : Str) : Except PanicKind (Option getRes) :=
  match alookup r.handlers method with
  | some p => p.get path
  | none => .ok none

/-- Embeds `Router.AllowedMethods`: every method whose parser resolves
the path; the iteration is modelled in registration order, and a panic
in any parser aborts the scan as it does in Go. -/
def Router.AllowedMethods : List (Str × parser) → Str → Except PanicKind (List Str)
  | [], _ => .ok []
  | (m, prs) :: rest, path =>
      match prs.get path with
      | .error e => .error e
      | .ok (some _) =>
          match Router.AllowedMethods rest path with
          | .error e => .error e
          | .ok l => .ok (m :: l)
      | .ok none => Router.AllowedMethods rest path

/-- The observable outcome of one `ServeHTTP` dispatch. -/
inductive Outcome where
  | handled (h : Nat) (params : List Param)
  | methodNotAllowed (allow : List Str)
  | notFound
  | panicked
deriving DecidableEq

/-- Embeds the fallback tail of `Router.ServeHTTP`: compute the allowed
methods; an empty set is a 404 outcome, a non-empty set a 405 outcome,
and a panic is intercepted by the deferred recover. -/
def Router.serveFallback (r : Router) (path : Str) : Outcome :=
  match Router.AllowedMethods r.handlers path with
  | .error _ => .panicked
  | .ok [] => .notFound
  | .ok allowed => .methodNotAllowed allowed

/-- Embeds `Router.ServeHTTP`: resolve the request's method and path;
invoke the handler with the bound parameters on success, fall back to
405/404 on a miss, and convert a recovered panic into the panic
outcome. -/
def Router.ServeHTTP (r : Router) (method path : Str) : Outcome :=
  match alookup r.handlers method with
  | some prs =>
      match prs.get path with
      | .error _ => .panicked
      | .ok (some res) => .handled res.handle res.result
      | .ok none => Router.serveFallback r path
  | none => Router.serveFallback r path

/-- Embeds `Router.Routes`: all registered pattern strings per method. -/
def Router.Routes (r : Router) : List (Str × Str) :=
  (r.handlers.map (fun mp => mp.2.routes.map (fun path => (mp.1, path)))).flatten

/-- Folds a whole registration sequence into a parser, ignoring the
per-call success flags as `Router.Handle` does. -/
def registerAll (p : parser) (regs : List (Str × Nat)) : parser :=
  regs.foldl (fun acc r => (register acc r.1 r.2).1) p

/-- All length buckets of a parser are sorted ascending by key. -/
def bucketsSorted (p : parser) : Prop :=
  ∀ level : Nat, (fget p.fields level).Pairwise (fun a b => a.key ≤ b.key)

/-- The shape of segment lists produced by a successful `split` whose
canonical string round-trips through `split` unchanged. -/
def canonicalSegs (segs : List Str) : Prop :=
  segs ≠ [] ∧ segs.length < maxLevel ∧
    ∀ s ∈ segs, s ≠ [] ∧ ('/' : Char) ∉ s ∧ isParam s = false ∧ isWild s = false ∧ trim ' ' s = s

instance (segs : List Str) : Decidable (canonicalSegs segs) := by
  unfold canonicalSegs
  infer_instance

/-- Every static key other than through the catch-all branch is the
canonical string of a short, slash-free segment list. -/
def staticCanonical (p : parser) : Prop :=
  ∀ kv ∈ p.static, ∃ parts : List Str, kv.1 = '/' :: join parts
    ∧ (∀ s ∈ parts, s ≠ [] ∧ ('/' : Char) ∉ s) ∧ parts.length < maxLevel

/-! Concrete registries used by the individual claims. -/

/-- The two overlapping GET patterns of the specificity example. -/
def c1patA : Str := ("/products/:name/orders/:id").toList

/-- The more specific of the two overlapping GET patterns. -/
def c1patB : Str := ("/products/book/orders/:id").toList

/-- Registry with the general pattern registered first. -/
def c1stAB : parser := (register (register newParser c1patA 1).1 c1patB 2).1

/-- Registry with the specific pattern registered first. -/
def c1stBA : parser := (register (register newParser c1patB 2).1 c1patA 1).1

/-- Registry holding one wildcard pattern whose non-wildcard prefix is
two segments long. -/
def c2st : parser := (register newParser (("/a/b/*").toList) 1).1

/-- Seven same-length parameterized registrations: two records of
specificity key 513 registered first and second, four of key 768, and
finally one of key 258, which triggers the unstable sort. -/
def c3regs : List (Str × Nat) :=
  [(("/:a/:b/q1").toList, 1), (("/:a/:b/q2").toList, 2),
   (("/:u1/:v1/:w1").toList, 3), (("/:u2/:v2/:w2").toList, 4),
   (("/:u3/:v3/:w3").toList, 5), (("/:u4/:v4/:w4").toList, 6),
   (("/:z/m/n").toList, 7)]

/-- The parser built from the seven registrations above. -/
def c3st : parser := registerAll newParser c3regs

/-- Registry with the wildcard file-serving pattern of the claim. -/
def c6st : parser := (register newParser (("/files/:dir/*").toList) 9).1

/-- The same parameterized pattern registered twice with different
handlers (first handler 1, then handler 2). -/
def c7st : parser :=
  (register (register newParser (("/users/:id").toList) 1).1 (("/users/:id").toList) 2).1

/-- A path of exactly 255 raw slash-delimited parts. -/
def c8path : Str := List.intercalate ['/'] (List.replicate 255 ['a'])

/-- Static map listing `/x` before `/y`, with two overlapping wildcard
records both matching any path under `/files`. -/
def c9p1 : parser :=
  ⟨[], [(['/', 'x'], 1), (['/', 'y'], 2)],
   [⟨2, 21, [("files").toList, ['*']]⟩, ⟨2, 22, [("files").toList, ['*']]⟩]⟩

/-- The same registry content with the static entries in the other
insertion order. -/
def c9p2 : parser :=
  ⟨[], [(['/', 'y'], 2), (['/', 'x'], 1)],
   [⟨2, 21, [("files").toList, ['*']]⟩, ⟨2, 22, [("files").toList, ['*']]⟩]⟩

/-- Router with handlers for `/users` registered under POST, PUT and
DELETE only. -/
def c4rt : Router :=
  Router.Handle
    (Router.Handle
      (Router.Handle Router.new (("POST").toList) (("/users").toList) 1)
      (("PUT").toList) (("/users").toList) 2)
    (("DELETE").toList) (("/users").toList) 3

/-- Router with one good GET route, used to observe that a failing
registration changes nothing. -/
def c10rt : Router := Router.Handle Router.new (("GET").toList) (("/ok").toList) 1

/-- Decidable equality for matcher results, used to settle the concrete
claims by evaluation. -/
instance {ε α : Type} [DecidableEq ε] [DecidableEq α] : DecidableEq (Except ε α) := by
  intro a b
  cases a <;> cases b
  case error.error e e' =>
    exact if h : e = e' then .isTrue (by rw [h]) else .isFalse (by intro hc; cases hc; exact h rfl)
  case error.ok e a' => exact .isFalse (by intro hc; cases hc)
  case ok.error a' e => exact .isFalse (by intro hc; cases hc)
  case ok.ok a' b' =>
    exact if h : a' = b' then .isTrue (by rw [h]) else .isFalse (by intro hc; cases hc; exact h rfl)

/-! Helper lemmas about the association lists and the sort. -/

theorem alookup_aset {κ α : Type} [DecidableEq κ] (l : List (κ × α)) (k k' : κ) (v : α) :
    alookup (aset l k v) k' = if k = k' then some v else alookup l k' := by
  induction l with
  | nil => simp [aset, alookup]
  | cons kv rest ih =>
      obtain ⟨k₀, v₀⟩ := kv
      by_cases h₀ : k₀ = k
      · subst h₀
        by_cases h₁ : k₀ = k'
        · subst h₁; simp [aset, alookup]
        · simp [aset, alookup, h₁]
      · by_cases h₁ : k₀ = k'
        · subst h₁
          have : ¬ k = k₀ := fun hc => h₀ hc.symm
          simp [aset, alookup, h₀, this]
        · simp [aset, alookup, h₀, h₁, ih]

theorem fget_aset (f : List (Nat × List record)) (k k' : Nat) (v : List record) :
    fget (aset f k v) k' = if k = k' then v else fget f k' := by
  by_cases h : k = k' <;> simp [fget, alookup_aset, h]

theorem mem_insRec (x y : record) (l : List record) :
    y ∈ insRec x l ↔ y = x ∨ y ∈ l := by
  induction l with
  | nil => simp [insRec]
  | cons z zs ih =>
      by_cases h : x.key < z.key
      · simp only [insRec, if_pos h, List.mem_cons]
      · simp only [insRec, if_neg h, List.mem_cons, ih]
        tauto

theorem pairwise_insRec (x : record) (l : List record)
    (h : l.Pairwise (fun a b => a.key ≤ b.key)) :
    (insRec x l).Pairwise (fun a b => a.key ≤ b.key) := by
  induction l with
  | nil => simp [insRec]
  | cons z zs ih =>
      rcases List.pairwise_cons.mp h with ⟨hz, hzs⟩
      by_cases hlt : x.key < z.key
      · simp only [insRec, if_pos hlt]
        refine List.pairwise_cons.mpr ⟨?_, List.pairwise_cons.mpr ⟨hz, hzs⟩⟩
        intro y hy
        rcases List.mem_cons.mp hy with rfl | hy'
        · exact Nat.le_of_lt hlt
        · exact Nat.le_trans (Nat.le_of_lt hlt) (hz y hy')
      · simp only [insRec, if_neg hlt]
        refine List.pairwise_cons.mpr ⟨?_, ih hzs⟩
        intro y hy
        rcases (mem_insRec x y zs).mp hy with rfl | hy'
        · exact Nat.le_of_not_lt hlt
        · exact hz y hy'

theorem pairwise_insertionSort (l : List record) :
    (insertionSort l).Pairwise (fun a b => a.key ≤ b.key) := by
  suffices h : ∀ acc, acc.Pairwise (fun a b : record => a.key ≤ b.key) →
      (l.foldl (fun acc x => insRec x acc) acc).Pairwise (fun a b => a.key ≤ b.key) by
    exact h [] (by simp)
  induction l with
  | nil => intro acc hacc; simpa using hacc
  | cons x xs ih =>
      intro acc hacc
      exact ih (insRec x acc) (pairwise_insRec x acc hacc)

theorem pairwise_sortRecords (l : List record) :
    (sortRecords l).Pairwise (fun a b => a.key ≤ b.key) :=
  pairwise_insertionSort (shellPass l)

theorem bucketsSorted_register (p : parser) (path : Str) (h : Nat)
    (hp : bucketsSorted p) : bucketsSorted (register p path h).1 := by
  unfold register
  by_cases hast : trim ' ' path = asterisk
  · simpa [hast] using hp
  · simp only [if_neg hast]
    cases hsplit : split path with
    | none => simpa using hp
    | some parts =>
        simp only []
        by_cases hwild : (parts.filter (fun v => isWild v)).length > 0
        · simpa [hwild] using hp
        · by_cases hdyn : (parts.filter (fun v => isParam v)).length = 0
          · simpa [hwild, hdyn] using hp
          · intro level
            simp only [if_neg hwild, if_neg hdyn]
            rw [fget_aset]
            by_cases hl : parts.length = level
            · simpa [hl] using pairwise_sortRecords _
            · simpa [hl] using hp level

theorem bucketsSorted_newParser : bucketsSorted newParser := by
  intro level
  simp [newParser, fget, alookup]

/-! Helper lemmas about `trim`, `explode` and failing segmentation. -/

theorem mem_of_mem_trim (c x : Char) (s : Str) (hx : x ∈ trim c s) : x ∈ s := by
  have h₁ : (trim c s).Sublist ((s.dropWhile (fun y => y = c)).reverse.dropWhile (fun y => y = c)).reverse :=
    by simp [trim]
  have h₂ : (((s.dropWhile (fun y => y = c)).reverse.dropWhile (fun y => y = c)).reverse).Sublist
      (s.dropWhile (fun y => y = c)) := by
    have := (List.dropWhile_sublist (l := (s.dropWhile (fun y => y = c)).reverse)
      (fun y => y = c)).reverse
    simpa using this
  exact ((h₁.trans h₂).trans (List.dropWhile_sublist (fun y => y = c))).mem hx

theorem mem_trim_or (c x : Char) (s : Str) (hx : x ∈ s) : x = c ∨ x ∈ trim c s := by
  by_cases hmem : x ∈ s.dropWhile (fun y => y = c)
  · set d := s.dropWhile (fun y => y = c) with hd
    by_cases hmem' : x ∈ d.reverse.dropWhile (fun y => y = c)
    · right
      simpa [trim, ← hd] using (List.mem_reverse).mpr hmem'
    · left
      have hrev : x ∈ d.reverse := (List.mem_reverse).mpr hmem
      rw [← List.takeWhile_append_dropWhile (p := fun y => y = c) (l := d.reverse)] at hrev
      rcases List.mem_append.mp hrev with htk | hdp
      · have := List.mem_takeWhile_imp htk
        simpa using this
      · exact absurd hdp hmem'
  · left
    rw [← List.takeWhile_append_dropWhile (p := fun y => y = c) (l := s)] at hx
    rcases List.mem_append.mp hx with htk | hdp
    · have := List.mem_takeWhile_imp htk
      simpa using this
    · exact absurd hdp hmem

theorem explode_length_le_one (s : Str) (hs : ('/' : Char) ∉ s) :
    (explode s).length ≤ 1 := by
  unfold explode
  by_cases h : s = []
  · simp [h]
  · rw [if_neg h]
    have : s.splitOn '/' = [s] := by
      apply List.splitOnP_eq_single
      intro x hx
      simp only [beq_iff_eq]
      intro hc
      exact hs (hc ▸ hx)
    simp [List.splitOn] at this ⊢
    simp [this]

theorem split_none_not_asterisk (path : Str) (hn : split path = none) :
    trim ' ' path ≠ asterisk := by
  intro hast
  have hslash : ('/' : Char) ∉ path := by
    intro hmem
    rcases mem_trim_or ' ' '/' path hmem with h | h
    · exact absurd h (by decide)
    · rw [hast] at h
      exact absurd h (by decide)
  have hslash' : ('/' : Char) ∉ trim '/' path := fun hc => hslash (mem_of_mem_trim _ _ _ hc)
  have hlen := explode_length_le_one (trim '/' path) hslash'
  unfold split at hn
  by_cases h0 : (explode (trim '/' path)).length = 0
  · simp [h0] at hn
  · have h1 : (explode (trim '/' path)).length < maxLevel := by
      unfold maxLevel; omega
    simp [h0, h1] at hn

theorem register_split_none (p : parser) (path : Str) (h : Nat)
    (hn : split path = none) : register p path h = (p, false) := by
  unfold register
  rw [if_neg (split_none_not_asterisk path hn), hn]

theorem get_newParser (q : Str) : parser.get newParser q = .ok none := by
  unfold parser.get
  cases hs : split q <;> simp [newParser, alookup, fget, parseParams, hs]

theorem aset_self {κ α : Type} [DecidableEq κ] (l : List (κ × α)) (k : κ) (v : α)
    (h : alookup l k = some v) : aset l k v = l := by
  induction l with
  | nil => simp [alookup] at h
  | cons kv rest ih =>
      obtain ⟨k₀, v₀⟩ := kv
      by_cases h₀ : k₀ = k
      · subst h₀
        have h' : v₀ = v := by simpa [alookup] using h
        simp [aset, h']
      · simp only [alookup, if_neg h₀] at h
        simp [aset, h₀, ih h]

theorem aset_absent {κ α : Type} [DecidableEq κ] (l : List (κ × α)) (k : κ) (v : α)
    (h : alookup l k = none) : aset l k v = l ++ [(k, v)] := by
  induction l with
  | nil => simp [aset]
  | cons kv rest ih =>
      obtain ⟨k₀, v₀⟩ := kv
      by_cases h₀ : k₀ = k
      · subst h₀; simp [alookup] at h
      · simp only [alookup, if_neg h₀] at h
        simp [aset, h₀, ih h]

/-! Canonical literal patterns: a non-empty segment list, below the
depth limit, whose segments are non-empty, slash-free, space-stable,
not parameters and not the wildcard marker.  `'/' :: join segs` is then
the canonical pattern string of the segment list. -/

theorem join_singleton (s : Str) : join [s] = s := by
  simp [join, List.intercalate]

theorem join_cons_cons (s t : Str) (rest : List Str) :
    join (s :: t :: rest) = s ++ '/' :: join (t :: rest) := by
  simp [join, List.intercalate, List.intersperse_cons_cons]

theorem join_ne_nil (segs : List Str) (h0 : segs ≠ [])
    (h1 : ∀ s ∈ segs, s ≠ []) : join segs ≠ [] := by
  cases segs with
  | nil => exact absurd rfl h0
  | cons s rest =>
      cases rest with
      | nil =>
          rw [join_singleton]
          exact h1 s (by simp)
      | cons t rest' =>
          rw [join_cons_cons]
          have hs := h1 s (by simp)
          cases s with
          | nil => exact absurd rfl hs
          | cons a as => simp

theorem dropWhile_stable_head {p : Char → Bool} (y : Char) (ys : Str)
    (h : (y :: ys).dropWhile p = y :: ys) : p y = false := by
  by_cases hy : p y = true
  · rw [List.dropWhile_cons, if_pos hy] at h
    have hlen2 : (ys.dropWhile p).length = ys.length + 1 := by rw [h]; simp
    have hlen := (List.dropWhile_sublist (l := ys) p).length_le
    omega
  · simpa using hy

theorem dropWhile_append_stable {p : Char → Bool} (l₁ l₂ : Str)
    (h : l₁.dropWhile p = l₁) (hne : l₁ ≠ []) :
    (l₁ ++ l₂).dropWhile p = l₁ ++ l₂ := by
  cases l₁ with
  | nil => exact absurd rfl hne
  | cons y ys =>
      have hy := dropWhile_stable_head y ys h
      rw [List.cons_append, List.dropWhile_cons, hy]
      simp

theorem dropWhile_slash_join (segs : List Str) (h0 : segs ≠ [])
    (h1 : ∀ s ∈ segs, s ≠ [] ∧ ('/' : Char) ∉ s) :
    (join segs).dropWhile (fun y => y = '/') = join segs := by
  cases segs with
  | nil => exact absurd rfl h0
  | cons s rest =>
      obtain ⟨hne, hns⟩ := h1 s (by simp)
      cases s with
      | nil => exact absurd rfl hne
      | cons a as =>
          have ha : a ≠ '/' := fun hc => hns (by simp [hc])
          cases rest with
          | nil =>
              rw [join_singleton, List.dropWhile_cons]
              simp [ha]
          | cons t rest' =>
              rw [join_cons_cons, List.cons_append, List.dropWhile_cons]
              simp [ha]

theorem dropWhile_slash_join_reverse (segs : List Str) (h0 : segs ≠ [])
    (h1 : ∀ s ∈ segs, s ≠ [] ∧ ('/' : Char) ∉ s) :
    (join segs).reverse.dropWhile (fun y => y = '/') = (join segs).reverse := by
  induction segs with
  | nil => exact absurd rfl h0
  | cons s rest ih =>
      obtain ⟨hne, hns⟩ := h1 s (by simp)
      cases rest with
      | nil =>
          rw [join_singleton]
          cases hrev : s.reverse with
          | nil => simp
          | cons y ys =>
              have hy : y ∈ s := by
                have : y ∈ s.reverse := by rw [hrev]; simp
                simpa using this
              have hyne : y ≠ '/' := fun hc => hns (hc ▸ hy)
              rw [List.dropWhile_cons]
              simp [hyne]
      | cons t rest' =>
          have hJ := ih (by simp) (fun s hs => h1 s (by simp [hs]))
          have hJne : join (t :: rest') ≠ [] :=
            join_ne_nil _ (by simp) (fun s hs => (h1 s (by simp [hs])).1)
          have hJrevne : (join (t :: rest')).reverse ≠ [] := by
            simpa using hJne
          rw [join_cons_cons, List.reverse_append]
          have hrv : ('/' :: join (t :: rest')).reverse
              = (join (t :: rest')).reverse ++ ['/'] := by simp
          rw [hrv, List.append_assoc]
          exact dropWhile_append_stable _ _ hJ hJrevne

theorem trim_slash_join (segs : List Str) (h0 : segs ≠ [])
    (h1 : ∀ s ∈ segs, s ≠ [] ∧ ('/' : Char) ∉ s) :
    trim '/' (join segs) = join segs := by
  unfold trim
  rw [dropWhile_slash_join segs h0 h1, dropWhile_slash_join_reverse segs h0 h1]
  simp

theorem trim_slash_canonical (segs : List Str) (h0 : segs ≠ [])
    (h1 : ∀ s ∈ segs, s ≠ [] ∧ ('/' : Char) ∉ s) :
    trim '/' ('/' :: join segs) = join segs := by
  unfold trim
  rw [List.dropWhile_cons]
  simp only [decide_eq_true_eq, if_true]
  rw [dropWhile_slash_join segs h0 h1, dropWhile_slash_join_reverse segs h0 h1]
  simp

theorem map_trim_space_self (segs : List Str)
    (h : ∀ s ∈ segs, trim ' ' s = s) : segs.map (fun v => trim ' ' v) = segs := by
  induction segs with
  | nil => rfl
  | cons s rest ih =>
      rw [List.map_cons, h s (by simp), ih (fun s hs => h s (by simp [hs]))]

theorem explode_join (segs : List Str) (h0 : segs ≠ [])
    (h1 : ∀ s ∈ segs, s ≠ [] ∧ ('/' : Char) ∉ s) :
    explode (join segs) = segs := by
  unfold explode
  rw [if_neg (join_ne_nil segs h0 (fun s hs => (h1 s hs).1))]
  exact List.splitOn_intercalate segs '/' (fun l hl => (h1 l hl).2) h0

theorem split_of_trim_slash (segs : List Str) (path : Str) (hc : canonicalSegs segs)
    (ht : trim '/' path = join segs) : split path = some segs := by
  obtain ⟨h0, hlen, hall⟩ := hc
  have h1 : ∀ s ∈ segs, s ≠ [] ∧ ('/' : Char) ∉ s := fun s hs =>
    ⟨(hall s hs).1, (hall s hs).2.1⟩
  unfold split
  rw [ht, explode_join segs h0 h1]
  have hlen0 : segs.length ≠ 0 := fun hc' => h0 (List.length_eq_zero.mp hc')
  rw [if_neg hlen0, if_pos hlen]
  rw [map_trim_space_self segs (fun s hs => (hall s hs).2.2.2.2)]
  have : segs.filter (fun v => v ≠ []) = segs := by
    rw [List.filter_eq_self]
    intro s hs
    simpa using (hall s hs).1
  rw [this]

theorem split_canonical (segs : List Str) (hc : canonicalSegs segs) :
    split ('/' :: join segs) = some segs := by
  obtain ⟨h0, hlen, hall⟩ := hc
  have h1 : ∀ s ∈ segs, s ≠ [] ∧ ('/' : Char) ∉ s := fun s hs =>
    ⟨(hall s hs).1, (hall s hs).2.1⟩
  exact split_of_trim_slash segs _ ⟨h0, hlen, hall⟩ (trim_slash_canonical segs h0 h1)

theorem split_canonical_slash (segs : List Str) (hc : canonicalSegs segs) :
    split (('/' :: join segs) ++ ['/']) = some segs := by
  obtain ⟨h0, hlen, hall⟩ := hc
  have h1 : ∀ s ∈ segs, s ≠ [] ∧ ('/' : Char) ∉ s := fun s hs =>
    ⟨(hall s hs).1, (hall s hs).2.1⟩
  apply split_of_trim_slash segs _ ⟨h0, hlen, hall⟩
  unfold trim
  rw [List.cons_append, List.dropWhile_cons]
  simp only [decide_eq_true_eq, if_true]
  rw [dropWhile_append_stable _ _ (dropWhile_slash_join segs h0 h1)
    (join_ne_nil segs h0 (fun s hs => (h1 s hs).1))]
  rw [List.reverse_append]
  have : (['/'] : Str).reverse = ['/'] := rfl
  rw [this, List.singleton_append, List.dropWhile_cons]
  simp only [decide_eq_true_eq, if_true]
  rw [dropWhile_slash_join_reverse segs h0 h1]
  simp

theorem trim_space_slash_ne_asterisk (t : Str) : trim ' ' ('/' :: t) ≠ asterisk := by
  intro hc
  have hdrop : ('/' :: t).dropWhile (fun x => x = ' ') = '/' :: t := by
    rw [List.dropWhile_cons]
    simp
  have hpre : (trim ' ' ('/' :: t)) <+: ('/' :: t) := by
    unfold trim
    rw [hdrop]
    have hsuf := List.dropWhile_suffix (l := ('/' :: t).reverse) (fun x => x = ' ')
    simpa using hsuf.reverse
  rw [hc] at hpre
  rcases hpre with ⟨r, hr⟩
  unfold asterisk at hr
  simp at hr

theorem canonical_ne_asterisk (segs : List Str) : ('/' :: join segs) ≠ asterisk := by
  unfold asterisk
  simp

theorem register_canonical_static (p : parser) (segs : List Str) (h : Nat)
    (hc : canonicalSegs segs) :
    register p ('/' :: join segs) h
      = ({ p with static := aset p.static ('/' :: join segs) h }, true) := by
  obtain ⟨h0, hlen, hall⟩ := hc
  unfold register
  rw [if_neg (trim_space_slash_ne_asterisk _)]
  rw [split_canonical segs ⟨h0, hlen, hall⟩]
  have hdyn : (segs.filter (fun v => isParam v)).length = 0 := by
    rw [List.length_eq_zero, List.filter_eq_nil_iff]
    intro s hs
    simp [(hall s hs).2.2.1]
  have hwild : (segs.filter (fun v => isWild v)).length = 0 := by
    rw [List.length_eq_zero, List.filter_eq_nil_iff]
    intro s hs
    simp [(hall s hs).2.2.2.1]
  simp only [hdyn, hwild, gt_iff_lt, Nat.lt_irrefl, if_false, if_pos rfl, if_true]

theorem get_canonical_single (segs : List Str) (h : Nat) (Q : Str)
    (hQ : split Q = some segs) :
    parser.get ⟨[], [('/' :: join segs, h)], []⟩ Q
      = .ok (some ⟨h, [], '/' :: join segs⟩) := by
  have hPa := canonical_ne_asterisk segs
  by_cases hPQ : ('/' :: join segs) = Q
  · subst hPQ
    unfold parser.get
    simp [alookup, if_neg hPa]
  · unfold parser.get
    simp only [alookup, if_neg hPa, if_neg hPQ, hQ]
    simp [alookup]

/-! Canonical-literal registration: the remaining association lemmas. -/

theorem splitOnP_pieces (p : Char → Bool) :
    ∀ (s : Str) piece, piece ∈ s.splitOnP p → ∀ x ∈ piece, p x = false := by
  intro s
  induction s with
  | nil =>
      intro piece hp x hx
      rw [List.splitOnP_nil] at hp
      simp at hp
      subst hp
      simp at hx
  | cons a t ih =>
      intro piece hp x hx
      rw [List.splitOnP_cons] at hp
      by_cases ha : p a = true
      · rw [if_pos ha] at hp
        rcases List.mem_cons.mp hp with rfl | hp'
        · simp at hx
        · exact ih piece hp' x hx
      · rw [if_neg ha] at hp
        cases hrec : t.splitOnP p with
        | nil => exact absurd hrec (List.splitOnP_ne_nil p t)
        | cons h₀ hs =>
            rw [hrec] at hp
            simp only [List.modifyHead] at hp
            rcases List.mem_cons.mp hp with rfl | hp'
            · rcases List.mem_cons.mp hx with rfl | hx'
              · simpa using ha
              · exact ih h₀ (by rw [hrec]; simp) x hx'
            · exact ih piece (by rw [hrec]; simp [hp']) x hx

theorem split_some_props (path : Str) (parts : List Str) (h : split path = some parts) :
    (∀ s ∈ parts, s ≠ [] ∧ ('/' : Char) ∉ s) ∧ parts.length < maxLevel := by
  unfold split at h
  by_cases h0 : (explode (trim '/' path)).length = 0
  · rw [if_pos h0] at h
    have : explode (trim '/' path) = [] := List.length_eq_zero.mp h0
    rw [this] at h
    have hparts : parts = [] := by
      cases h
      rfl
    subst hparts
    exact ⟨by simp, by decide⟩
  · rw [if_neg h0] at h
    by_cases h1 : (explode (trim '/' path)).length < maxLevel
    · rw [if_pos h1] at h
      have hparts : parts
          = ((explode (trim '/' path)).map (fun v => trim ' ' v)).filter (fun v => v ≠ []) := by
        cases h
        rfl
      constructor
      · intro s hs
        rw [hparts] at hs
        have hne : s ≠ [] := by
          have := List.of_mem_filter hs
          simpa using this
        refine ⟨hne, ?_⟩
        have hmap : s ∈ (explode (trim '/' path)).map (fun v => trim ' ' v) :=
          List.mem_of_mem_filter hs
        rcases List.mem_map.mp hmap with ⟨v, hv, rfl⟩
        intro hcon
        have hvmem : ('/' : Char) ∈ v := mem_of_mem_trim ' ' '/' v hcon
        unfold explode at hv
        by_cases hemp : trim '/' path = []
        · rw [if_pos hemp] at hv
          simp at hv
        · rw [if_neg hemp] at hv
          have := splitOnP_pieces (fun x => x == '/') (trim '/' path) v hv '/' hvmem
          simp at this
      · rw [hparts]
        calc (((explode (trim '/' path)).map (fun v => trim ' ' v)).filter (fun v => v ≠ [])).length
            ≤ ((explode (trim '/' path)).map (fun v => trim ' ' v)).length :=
              List.length_filter_le _ _
          _ = (explode (trim '/' path)).length := List.length_map _ _
          _ < maxLevel := h1
    · rw [if_neg h1] at h
      cases h

theorem split_none_iff (path : Str) :
    split path = none ↔ maxLevel ≤ (explode (trim '/' path)).length := by
  unfold split
  by_cases h0 : (explode (trim '/' path)).length = 0
  · rw [if_pos h0]
    constructor
    · intro hc
      cases hc
    · intro hc
      rw [h0] at hc
      unfold maxLevel at hc
      omega
  · by_cases h1 : (explode (trim '/' path)).length < maxLevel
    · simp only [if_neg h0, if_pos h1]
      unfold maxLevel at h1 ⊢
      constructor
      · intro hc
        cases hc
      · intro hc
        omega
    · simp only [if_neg h0, if_neg h1]
      unfold maxLevel at h1 ⊢
      constructor
      · intro _
        omega
      · intro _
        trivial

theorem mem_aset {κ α : Type} [DecidableEq κ] (l : List (κ × α)) (k : κ) (v : α)
    (kv : κ × α) (h : kv ∈ aset l k v) : kv = (k, v) ∨ kv ∈ l := by
  induction l with
  | nil =>
      simp [aset] at h
      simp [h]
  | cons kv₀ rest ih =>
      obtain ⟨k₀, v₀⟩ := kv₀
      by_cases h₀ : k₀ = k
      · subst h₀
        simp only [aset, if_pos rfl] at h
        rcases List.mem_cons.mp h with rfl | h'
        · simp
        · simp [h']
      · simp only [aset, if_neg h₀] at h
        rcases List.mem_cons.mp h with rfl | h'
        · simp
        · rcases ih h' with h'' | h''
          · simp [h'']
          · simp [h'']

theorem alookup_none_of_keys {κ α : Type} [DecidableEq κ] (l : List (κ × α)) (k : κ)
    (h : ∀ kv ∈ l, kv.1 ≠ k) : alookup l k = none := by
  induction l with
  | nil => rfl
  | cons kv rest ih =>
      obtain ⟨k₀, v₀⟩ := kv
      have hne : k₀ ≠ k := h (k₀, v₀) (by simp)
      simp only [alookup, if_neg hne]
      exact ih (fun kv hkv => h kv (by simp [hkv]))

theorem staticCanonical_register (p : parser) (path : Str) (h : Nat)
    (hna : trim ' ' path ≠ asterisk) (hp : staticCanonical p) :
    staticCanonical (register p path h).1 := by
  unfold register
  rw [if_neg hna]
  cases hsplit : split path with
  | none => exact hp
  | some parts =>
      simp only []
      by_cases hwild : (parts.filter (fun v => isWild v)).length > 0
      · simpa [hwild] using hp
      · by_cases hdyn : (parts.filter (fun v => isParam v)).length = 0
        · simp only [if_neg hwild, if_pos hdyn]
          intro kv hkv
          rcases mem_aset p.static ('/' :: join parts) h kv hkv with rfl | hmem
          · obtain ⟨hprops, hlen⟩ := split_some_props path parts hsplit
            exact ⟨parts, rfl, hprops, hlen⟩
          · exact hp kv hmem
        · simpa [hwild, hdyn] using hp

theorem registerAll_staticCanonical (regs : List (Str × Nat))
    (h : ∀ r ∈ regs, trim ' ' r.1 ≠ asterisk) :
    staticCanonical (registerAll newParser regs) := by
  suffices hgen : ∀ p, staticCanonical p → staticCanonical (registerAll p regs) by
    refine hgen newParser ?_
    intro kv hkv
    simp [newParser] at hkv
  induction regs with
  | nil => intro p hp; simpa [registerAll] using hp
  | cons r rest ih =>
      intro p hp
      have hstep := staticCanonical_register p r.1 r.2 (h r (by simp)) hp
      have hrest : ∀ r' ∈ rest, trim ' ' r'.1 ≠ asterisk := fun r' hr' => h r' (by simp [hr'])
      have := ih hrest (register p r.1 r.2).1 hstep
      simpa [registerAll] using this

theorem allowed_sub (l : List (Str × parser)) (path : Str) (res : List Str)
    (h : Router.AllowedMethods l path = .ok res) : ∀ m ∈ res, m ∈ l.map Prod.fst := by
  induction l generalizing res with
  | nil =>
      unfold Router.AllowedMethods at h
      cases h
      simp
  | cons mp rest ih =>
      obtain ⟨m₀, p₀⟩ := mp
      unfold Router.AllowedMethods at h
      cases hg : parser.get p₀ path with
      | error e => rw [hg] at h; cases h
      | ok og =>
          cases og with
          | none =>
              rw [hg] at h
              intro m hm
              exact List.mem_cons.mpr (Or.inr (ih res h m hm))
          | some r₀ =>
              rw [hg] at h
              cases hrest : Router.AllowedMethods rest path with
              | error e => rw [hrest] at h; cases h
              | ok res' =>
                  rw [hrest] at h
                  cases h
                  intro m hm
                  rcases List.mem_cons.mp hm with rfl | hm'
                  · simp only [List.map_cons]
                    exact List.mem_cons_self _ _
                  · exact List.mem_cons.mpr (Or.inr (ih res' hrest m hm'))

theorem allowed_mem (l : List (Str × parser)) (path : Str) (res : List Str)
    (hnd : (l.map Prod.fst).Nodup) (h : Router.AllowedMethods l path = .ok res) :
    ∀ m, m ∈ res ↔ ∃ prs r', alookup l m = some prs ∧ parser.get prs path = .ok (some r') := by
  induction l generalizing res with
  | nil =>
      unfold Router.AllowedMethods at h
      cases h
      intro m
      simp [alookup]
  | cons mp rest ih =>
      obtain ⟨m₀, p₀⟩ := mp
      have hnd' : (rest.map Prod.fst).Nodup := (List.nodup_cons.mp hnd).2
      have hnotin : m₀ ∉ rest.map Prod.fst := (List.nodup_cons.mp hnd).1
      unfold Router.AllowedMethods at h
      cases hg : parser.get p₀ path with
      | error e => rw [hg] at h; cases h
      | ok og =>
          cases og with
          | none =>
              rw [hg] at h
              intro m
              by_cases hm : m₀ = m
              · subst hm
                constructor
                · intro hmem
                  exact absurd (allowed_sub rest path res h m₀ hmem) hnotin
                · rintro ⟨prs, r', hlk, hget⟩
                  simp only [alookup, if_pos rfl] at hlk
                  cases hlk
                  rw [hget] at hg
                  cases hg
              · rw [ih res hnd' h m]
                simp [alookup, if_neg hm]
          | some r₀ =>
              rw [hg] at h
              cases hrest : Router.AllowedMethods rest path with
              | error e => rw [hrest] at h; cases h
              | ok res' =>
                  rw [hrest] at h
                  cases h
                  intro m
                  by_cases hm : m₀ = m
                  · subst hm
                    constructor
                    · intro _
                      exact ⟨p₀, r₀, by simp [alookup], hg⟩
                    · intro _
                      exact List.mem_cons_self _ _
                  · constructor
                    · intro hmem
                      rcases List.mem_cons.mp hmem with rfl | hm'
                      · exact absurd rfl hm
                      · have := (ih res' hnd' hrest m).mp hm'
                        rcases this with ⟨prs, r', hlk, hget⟩
                        exact ⟨prs, r', by simp [alookup, if_neg hm, hlk], hget⟩
                    · rintro ⟨prs, r', hlk, hget⟩
                      simp only [alookup, if_neg hm] at hlk
                      exact List.mem_cons.mpr (Or.inr ((ih res' hnd' hrest m).mpr ⟨prs, r', hlk, hget⟩))

theorem alookup_append {κ α : Type} [DecidableEq κ] (l l' : List (κ × α)) (k : κ) :
    alookup (l ++ l') k = ((alookup l k).rec (alookup l' k) (fun v => some v) : Option α) := by
  induction l with
  | nil => simp [alookup]
  | cons kv rest ih =>
      obtain ⟨k₀, v₀⟩ := kv
      by_cases h₀ : k₀ = k
      · subst h₀; simp [alookup]
      · simpa [alookup, h₀] using ih

end TakamaRouter

namespace TakamaRouter

/-- C1: with `"/products/:name/orders/:id"` and `"/products/book/orders/:id"`
both registered for the same method, in either order, resolving
`"/products/book/orders/12"` returns the handler of the pattern with
more literal segments (lower specificity key), binding exactly the one
parameter `:id = 12` — never the more general pattern's handler. -/
theorem c1_more_specific_pattern_wins :
    parser.get c1stAB (("/products/book/orders/12").toList)
        = .ok (some ⟨2, [⟨(":id").toList, ("12").toList⟩], c1patB⟩)
      ∧ parser.get c1stBA (("/products/book/orders/12").toList)
        = .ok (some ⟨2, [⟨(":id").toList, ("12").toList⟩], c1patB⟩) := by
  constructor <;> decide

/-- C2 (code bug): with the wildcard pattern `"/a/b/*"` registered,
resolving the one-segment path `"/a"` does not return normally: the
matcher reads `parts[1]` of a one-element slice, a Go index-out-of-range
panic, instead of reporting `found = false`. -/
theorem c2_resolve_panics_on_short_path :
    parser.get c2st (("/a").toList) = .error .indexOutOfRange := by
  decide

/-- C3 counterexample: after the seven registrations of `c3regs`, the
three-segment bucket holds the two records of equal specificity key 513
with the second-registered record (handler 2) before the
first-registered one (handler 1): the tie-break is not registration
order, because the sort used by `register` is unstable. -/
theorem c3_counterexample_tie_reordered :
    (fget c3st.fields 3).map (fun r => (r.key, r.handle))
      = [(258, 7), (513, 2), (513, 1), (768, 3), (768, 4), (768, 5), (768, 6)] := by
  decide

/-- C3 (amended): after any sequence of register calls, every length
bucket is sorted ascending by specificity key; the registration-order
tie-break of the original claim does not hold (see the counterexample),
because the sort used by `register` is not stable. -/
theorem c3_amended_buckets_sorted_by_key (regs : List (Str × Nat)) :
    bucketsSorted (registerAll newParser regs) := by
  suffices h : ∀ p, bucketsSorted p → bucketsSorted (registerAll p regs) from
    h newParser bucketsSorted_newParser
  induction regs with
  | nil => intro p hp; simpa [registerAll] using hp
  | cons r rest ih =>
      intro p hp
      have hstep := bucketsSorted_register p r.1 r.2 hp
      simpa [registerAll] using ih _ hstep

/-- C6: with `"/files/:dir/*"` registered, resolving
`"/files/css/style.css"` and `"/files/js/app.js"` both succeed, bind
exactly `:dir` to the second segment, and report the same matched
pattern string; the wildcard absorbs the trailing segment without any
binding. -/
theorem c6_wildcard_binds_dir_only :
    parser.get c6st (("/files/css/style.css").toList)
        = .ok (some ⟨9, [⟨(":dir").toList, ("css").toList⟩], ("/files/:dir/*").toList⟩)
      ∧ parser.get c6st (("/files/js/app.js").toList)
        = .ok (some ⟨9, [⟨(":dir").toList, ("js").toList⟩], ("/files/:dir/*").toList⟩) := by
  constructor <;> decide

set_option maxRecDepth 20000 in
/-- C8 counterexample: a path of exactly 255 raw parts — "255 or fewer"
in the claim — fails segmentation (the code requires the part count to
be strictly below 255), and with a catch-all registered, resolving a
path whose segmentation fails still reports found, not not-found. -/
theorem c8_counterexample_255_parts_fail :
    (explode (trim '/' c8path)).length = 255
      ∧ split c8path = none
      ∧ parser.get (register newParser asterisk 3).1 c8path = .ok (some ⟨3, [], asterisk⟩) := by
  refine ⟨by decide, by decide, by decide⟩

/-- C9: resolution is a pure function of the observable registry
content: any two registries with the same static-map lookups, the same
length buckets and the same wildcard records resolve every path to the
identical (handler, params, matched pattern, found) result — in
particular repeated invocations on one immutable registry agree, even
when several wildcard records match the path. -/
theorem c9_resolve_pure_function_of_registry (p₁ p₂ : parser) (path : Str)
    (hs : ∀ k, alookup p₁.static k = alookup p₂.static k)
    (hf : ∀ level, fget p₁.fields level = fget p₂.fields level)
    (hw : p₁.wildcard = p₂.wildcard) :
    parser.get p₁ path = parser.get p₂ path := by
  simp only [parser.get, hs, hf, hw]

/-- Witness for C9: the two representations of the same registry resolve
a path matched by both wildcard records identically. -/
theorem c9_witness :
    parser.get c9p1 (("/files/app.js").toList) = parser.get c9p2 (("/files/app.js").toList) := by
  refine c9_resolve_pure_function_of_registry c9p1 c9p2 _ ?_ (fun level => rfl) rfl
  intro k
  by_cases h1 : (['/', 'x'] : Str) = k
  · subst h1; decide
  · by_cases h2 : (['/', 'y'] : Str) = k
    · subst h2; decide
    · simp only [c9p1, c9p2, alookup, if_neg h1, if_neg h2]

/-- C10: when a pattern's segmentation fails, `Router.Handle` still
returns normally, registers nothing, and leaves every prior route
resolving exactly as before: all lookups and the route enumeration are
unchanged. -/
theorem c10_handle_ignores_failed_registration (rt : Router) (method path : Str) (h : Nat)
    (hn : split path = none) :
    (∀ m q, Router.Lookup (Router.Handle rt method path h) m q = Router.Lookup rt m q)
      ∧ Router.Routes (Router.Handle rt method path h) = Router.Routes rt := by
  unfold Router.Handle
  cases hm : alookup rt.handlers method with
  | some prs =>
      simp only [Option.getD_some, register_split_none prs path h hn]
      rw [aset_self rt.handlers method prs hm]
      exact ⟨fun m q => rfl, rfl⟩
  | none =>
      simp only [Option.getD_none, register_split_none newParser path h hn]
      rw [aset_absent rt.handlers method newParser hm]
      constructor
      · intro m q
        unfold Router.Lookup
        rw [alookup_append]
        cases hlm : alookup rt.handlers m with
        | some prs' => rfl
        | none =>
            by_cases hmm : method = m
            · subst hmm
              simp [alookup, get_newParser]
            · simp [alookup, if_neg hmm]
      · unfold Router.Routes
        simp [parser.routes, newParser]

/-- C7 counterexample: registering `"/users/:id"` twice does not replace
the earlier handler: the bucket keeps both records and resolving
`"/users/7"` returns the first-registered handler 1, not the
last-registered handler 2. -/
theorem c7_counterexample_first_registration_wins :
    (fget c7st.fields 2).length = 2
      ∧ parser.get c7st (("/users/7").toList)
          = .ok (some ⟨1, [⟨(":id").toList, ("7").toList⟩], ("/users/:id").toList⟩) := by
  constructor <;> decide

/-- C5: for every canonical literal-only pattern `'/' :: join segs`,
registering it and resolving the very pattern string returns the
handler with no bound parameters, the pattern itself as matched route,
and found; every path whose segmentation yields the same segments —
trailing slash, duplicated slashes, surrounding whitespace — resolves
to the identical handler, and the pattern with a trailing slash
segments to the same segments. -/
theorem c5_literal_register_resolve (segs : List Str) (h : Nat) (hc : canonicalSegs segs) :
    parser.get (register newParser ('/' :: join segs) h).1 ('/' :: join segs)
        = .ok (some ⟨h, [], '/' :: join segs⟩)
      ∧ (∀ Q, split Q = some segs →
          parser.get (register newParser ('/' :: join segs) h).1 Q
            = .ok (some ⟨h, [], '/' :: join segs⟩))
      ∧ split (('/' :: join segs) ++ ['/']) = some segs := by
  have hreg := register_canonical_static newParser segs h hc
  refine ⟨?_, ?_, split_canonical_slash segs hc⟩
  · rw [hreg]
    exact get_canonical_single segs h _ (split_canonical segs hc)
  · intro Q hQ
    rw [hreg]
    exact get_canonical_single segs h Q hQ

/-- Witness for C5 at the two-segment literal pattern `/api/v1`: the
exact pattern, a duplicated-slash variant, a whitespace variant and the
trailing-slash variant all resolve to handler 5. -/
theorem c5_witness :
    parser.get (register newParser ('/' :: join [("api").toList, ("v1").toList]) 5).1
        ('/' :: join [("api").toList, ("v1").toList])
      = .ok (some ⟨5, [], '/' :: join [("api").toList, ("v1").toList]⟩)
    ∧ parser.get (register newParser ('/' :: join [("api").toList, ("v1").toList]) 5).1
        (("//api///v1").toList)
      = .ok (some ⟨5, [], '/' :: join [("api").toList, ("v1").toList]⟩)
    ∧ parser.get (register newParser ('/' :: join [("api").toList, ("v1").toList]) 5).1
        ((" /api/v1 ").toList)
      = .ok (some ⟨5, [], '/' :: join [("api").toList, ("v1").toList]⟩)
    ∧ parser.get (register newParser ('/' :: join [("api").toList, ("v1").toList]) 5).1
        (('/' :: join [("api").toList, ("v1").toList]) ++ ['/'])
      = .ok (some ⟨5, [], '/' :: join [("api").toList, ("v1").toList]⟩) := by
  have hthm := c5_literal_register_resolve [("api").toList, ("v1").toList] 5 (by decide)
  exact ⟨hthm.1, hthm.2.1 _ (by decide), hthm.2.1 _ (by decide), hthm.2.1 _ hthm.2.2⟩

/-- C7 (amended): the overwrite behaviour is not uniform across the
buckets: re-registering a canonical literal pattern overwrites the
static map entry (last registration wins), and the bare `*` catch-all
is likewise overwritten; but re-registering a parameterized or a
wildcard pattern appends a second record and the matcher returns the
first-registered handler. No case reports an error. -/
theorem c7_amended_overwrite_per_bucket :
    (∀ segs h₁ h₂, canonicalSegs segs →
        parser.get (register (register newParser ('/' :: join segs) h₁).1
            ('/' :: join segs) h₂).1 ('/' :: join segs)
          = .ok (some ⟨h₂, [], '/' :: join segs⟩))
      ∧ parser.get (register (register newParser (("/users/:id").toList) 1).1
            (("/users/:id").toList) 2).1 (("/users/7").toList)
          = .ok (some ⟨1, [⟨(":id").toList, ("7").toList⟩], ("/users/:id").toList⟩)
      ∧ parser.get (register (register newParser (("/files/*").toList) 1).1
            (("/files/*").toList) 2).1 (("/files/x").toList)
          = .ok (some ⟨1, [], ("/files/*").toList⟩)
      ∧ parser.get (register (register newParser (("*").toList) 1).1 (("*").toList) 2).1
            (("/zzz").toList) = .ok (some ⟨2, [], ("*").toList⟩) := by
  refine ⟨?_, by decide, by decide, by decide⟩
  intro segs h₁ h₂ hc
  rw [register_canonical_static newParser segs h₁ hc]
  rw [register_canonical_static _ segs h₂ hc]
  have haset : aset (aset newParser.static ('/' :: join segs) h₁) ('/' :: join segs) h₂
      = [('/' :: join segs, h₂)] := by
    simp [newParser, aset]
  simp only [haset]
  exact get_canonical_single segs h₂ _ (split_canonical segs hc)

/-- Witness for C7 (amended) at the literal pattern `/users`: the
second registration's handler 9 replaces handler 8. -/
theorem c7_amended_witness :
    parser.get (register (register newParser ('/' :: join [("users").toList]) 8).1
        ('/' :: join [("users").toList]) 9).1 ('/' :: join [("users").toList])
      = .ok (some ⟨9, [], '/' :: join [("users").toList]⟩) :=
  c7_amended_overwrite_per_bucket.1 [("users").toList] 8 9 (by decide)

/-- C8 (amended): segmentation fails exactly when the raw part count of
the slash-trimmed path is at least 255 — so 254 or fewer parts succeed
and exactly 255 fail, unlike the claim's "255 or fewer"; on failure
`register` reports failure and changes nothing, and `resolve` reports
not-found on any registry built without the catch-all `*` pattern (a
registered catch-all still matches such paths, see the
counterexample). -/
theorem c8_amended_split_threshold (path : Str) :
    (split path = none ↔ maxLevel ≤ (explode (trim '/' path)).length)
      ∧ (∀ p h, split path = none → register p path h = (p, false))
      ∧ (∀ regs, (∀ r ∈ regs, trim ' ' r.1 ≠ asterisk) → split path = none →
          parser.get (registerAll newParser regs) path = .ok none) := by
  refine ⟨split_none_iff path, fun p h hn => register_split_none p path h hn, ?_⟩
  intro regs hreg hn
  have hc := registerAll_staticCanonical regs hreg
  have hast : alookup (registerAll newParser regs).static asterisk = none := by
    apply alookup_none_of_keys
    intro kv hkv
    obtain ⟨parts, hkey, _, _⟩ := hc kv hkv
    rw [hkey]
    unfold asterisk
    simp
  have hpath : alookup (registerAll newParser regs).static path = none := by
    apply alookup_none_of_keys
    intro kv hkv hkpath
    obtain ⟨parts, hkey, hparts, hlen⟩ := hc kv hkv
    rw [hkpath] at hkey
    have hineq := (split_none_iff path).mp hn
    rw [hkey] at hineq
    cases parts with
    | nil =>
        rw [show (explode (trim '/' ('/' :: join ([] : List Str)))).length = 0 from by decide]
          at hineq
        unfold maxLevel at hineq
        omega
    | cons s rest =>
        have hne : (s :: rest : List Str) ≠ [] := by simp
        rw [trim_slash_canonical (s :: rest) hne hparts,
          explode_join (s :: rest) hne hparts] at hineq
        omega
  unfold parser.get
  rw [hast, hpath, hn]

set_option maxRecDepth 20000 in
/-- Witness for C8 (amended) at a path of 255 parts: `register` reports
failure and leaves the parser unchanged, and a registry holding only
`/ok` resolves the path to not-found. -/
theorem c8_amended_witness :
    register newParser c8path 11 = (newParser, false)
      ∧ parser.get (registerAll newParser [((("/ok").toList), 1)]) c8path = .ok none := by
  have hthm := c8_amended_split_threshold c8path
  have hn : split c8path = none := by decide
  exact ⟨hthm.2.1 newParser 11 hn, hthm.2.2 [((("/ok").toList), 1)] (by decide) hn⟩

/-- C4: when the request's method does not resolve, the dispatcher
answers 405 carrying exactly the methods whose own resolution of the
path succeeds, and 404 when no method qualifies; membership in the
candidate list characterises exactly the resolving methods. -/
theorem c4_method_not_allowed_candidates (r : Router) (method path : Str) (allowed : List Str)
    (hnd : (r.handlers.map Prod.fst).Nodup)
    (hmiss : Router.Lookup r method path = .ok none)
    (hall : Router.AllowedMethods r.handlers path = .ok allowed) :
    (Router.ServeHTTP r method path
        = if allowed = [] then Outcome.notFound else Outcome.methodNotAllowed allowed)
      ∧ (∀ m, m ∈ allowed ↔ ∃ prs res, alookup r.handlers m = some prs
          ∧ parser.get prs path = .ok (some res)) := by
  constructor
  · unfold Router.ServeHTTP
    cases hl : alookup r.handlers method with
    | none =>
        unfold Router.serveFallback
        rw [hall]
        cases allowed with
        | nil => simp
        | cons a as => simp
    | some prs =>
        have hget : parser.get prs path = .ok none := by
          unfold Router.Lookup at hmiss
          rw [hl] at hmiss
          exact hmiss
        dsimp only
        rw [hget]
        unfold Router.serveFallback
        rw [hall]
        cases allowed with
        | nil => simp
        | cons a as => simp
  · exact allowed_mem r.handlers path allowed hnd hall

/-- Witness for C4: with POST, PUT and DELETE registered on `/users`, a
GET request for `/users` is answered with 405 carrying exactly those
three methods. -/
theorem c4_witness :
    Router.ServeHTTP c4rt (("GET").toList) (("/users").toList)
      = .methodNotAllowed [("POST").toList, ("PUT").toList, ("DELETE").toList] := by
  have hthm := c4_method_not_allowed_candidates c4rt (("GET").toList) (("/users").toList)
    [("POST").toList, ("PUT").toList, ("DELETE").toList] (by decide) (by decide) (by decide)
  simpa using hthm.1

set_option maxRecDepth 20000 in
/-- Witness for C10: handing the 255-part pattern to `Handle` leaves the
existing `/ok` route resolving as before and the route list unchanged. -/
theorem c10_witness :
    Router.Lookup (Router.Handle c10rt (("GET").toList) c8path 9) (("GET").toList)
        (("/ok").toList)
      = Router.Lookup c10rt (("GET").toList) (("/ok").toList)
      ∧ Router.Routes (Router.Handle c10rt (("GET").toList) c8path 9) = Router.Routes c10rt := by
  have hthm := c10_handle_ignores_failed_registration c10rt (("GET").toList) c8path 9 (by decide)
  exact ⟨hthm.1 _ _, hthm.2⟩

end TakamaRouter
